import Mathlib

/-!
# Verification of the mini_lld_project interactive ETL pipeline

Shallow embedding of the pipeline implemented in
`mini_lld_project/data_connector.py`, `mini_lld_project/data_transformer.py`
and `mini_lld_project/main_cli.py`, together with theorems settling the
specification claims about it.

Modelling conventions:
* A pandas `DataFrame` is a `Table`: a header of column names, a parallel
  list of column dtypes, and a list of rows (each row a list of cell values
  aligned with the header).
* Cell values are `Value`: an explicit null (`NaN`/`NA`), a string, or a
  number (modelled as `Rat`; Python floats are abstracted to rationals).
* Character-level string operations model the ASCII fragment of the Python
  semantics: `Char.toLower`/`Char.toUpper` are exactly the ASCII case maps,
  `Char.isWhitespace` covers space, tab, carriage return and newline, and
  Unicode NFKC normalisation is the identity on this fragment.
* Effectful procedures are modelled as pure functions returning their result
  together with an explicit outcome/event value standing for what the
  procedure logs or prints to the interactive caller.
-/

namespace ETL

/-- A cell of a pandas DataFrame: an explicit null (`NaN`/`pd.NA`), a string,
or a number (Python floats abstracted to `Rat`). -/
inductive Value where
  | null : Value
  | str : String → Value
  | num : Rat → Value
deriving DecidableEq, Repr

/-- Broad column dtype families as used by `_dtype_buckets` in
`data_transformer.py` (`object`/`string` columns vs numeric columns). -/
inductive Dtype where
  | text : Dtype
  | number : Dtype
deriving DecidableEq, Repr

/-- A pandas DataFrame: named columns with dtypes and a list of rows.
Rows are aligned positionally with the header. -/
structure Table where
  header : List String
  dtypes : List Dtype
  rows : List (List Value)
deriving DecidableEq, Repr

/-- `pd.DataFrame()`: the empty frame with no columns and no rows, returned
by every failure branch of `load_source_data`. -/
def Table.emptyFrame : Table := ⟨[], [], []⟩

/-- `df.empty` in pandas: true when the frame has no rows (or no columns). -/
def Table.isEmpty (t : Table) : Bool := t.rows.isEmpty || t.header.isEmpty

/-! ## Character-level helpers for `clean_names`

`clean_names` runs, per selected column:
`.astype("string").str.normalize("NFKC").str.replace(r"\s+", " ", regex=True).str.strip()`
followed by `_apply_casing` (title/lower/upper on non-null entries).
On the ASCII fragment NFKC is the identity; the regex replace collapses
every maximal whitespace run to a single space; `strip` removes leading and
trailing whitespace. -/

/-- Is the head of a character list a whitespace character? -/
def headWs : List Char → Bool
  | [] => false
  | c :: _ => c.isWhitespace

/-- `re.sub(r"\s+", " ", s)`: collapse each maximal whitespace run to a
single space.  The boolean flag records whether the previous character was
part of a whitespace run already emitted as a space. -/
def collapseWsAux : Bool → List Char → List Char
  | _, [] => []
  | prevWs, c :: cs =>
    if c.isWhitespace then
      if prevWs then collapseWsAux true cs else ' ' :: collapseWsAux true cs
    else c :: collapseWsAux false cs

/-- The whitespace-collapsing pass of `clean_names`. -/
def collapseWs (l : List Char) : List Char := collapseWsAux false l

/-- Remove a maximal trailing whitespace run (the trailing half of
`str.strip`). -/
def dropTrailWs : List Char → List Char
  | [] => []
  | c :: t =>
    let t' := dropTrailWs t
    if t'.isEmpty then (if c.isWhitespace then [] else [c]) else c :: t'

/-- `str.strip()`: remove leading and trailing whitespace. -/
def stripWs (l : List Char) : List Char := dropTrailWs (l.dropWhile Char.isWhitespace)

/-- The three casing modes offered by `clean_names`. -/
inductive Casing where
  | title : Casing
  | lower : Casing
  | upper : Casing
deriving DecidableEq, Repr

/-- Python `str.title()` on the ASCII fragment: an alphabetic character is
uppercased when it starts a word (previous character not alphabetic) and
lowercased otherwise; other characters are unchanged.  The flag records
whether the previous character was alphabetic. -/
def titleAux : Bool → List Char → List Char
  | _, [] => []
  | prevAlpha, c :: cs =>
    if c.isAlpha then
      (if prevAlpha then c.toLower else c.toUpper) :: titleAux true cs
    else c :: titleAux false cs

/-- `_apply_casing` from `clean_names`: apply the selected casing mode. -/
def applyCasing : Casing → List Char → List Char
  | .title, l => titleAux false l
  | .lower, l => l.map Char.toLower
  | .upper, l => l.map Char.toUpper

/-- The full per-string cleaning pipeline of `clean_names`: NFKC (identity
on the modelled fragment), collapse whitespace runs, strip, then casing. -/
def cleanStr (cs : Casing) (s : String) : String :=
  ⟨applyCasing cs (stripWs (collapseWs s.data))⟩

/-- `str(q)` for a numeric cell; Python float formatting abstracted to the
`Rat` representation.  Only its existence (cells become strings) matters to
the claims. -/
def numToStr (q : Rat) : String := toString q

/-- `.astype(str)` / `.astype("string")` on one non-null cell: strings stay
themselves, numbers are formatted. -/
def stringifyVal : Value → String
  | .null => "nan"
  | .str s => s
  | .num q => numToStr q

/-- One cell of a selected column under `clean_names`: nulls are preserved
(`.astype("string")` keeps `NA`, and `_apply_casing` acts only on the
non-null mask); other cells go through the string pipeline. -/
def cleanCell (cs : Casing) : Value → Value
  | .null => .null
  | .str s => .str (cleanStr cs s)
  | .num q => .str (cleanStr cs (numToStr q))

/-- `clean_names(df)` restricted to its pure core: the caller-selected
columns `cols` and casing mode are parameters (the interactive prompts only
collect them).  Every selected column is rewritten cell-wise and its dtype
becomes `string`; unselected columns pass through unchanged. -/
def clean_names (t : Table) (cols : List String) (cs : Casing) : Table where
  header := t.header
  dtypes := List.zipWith (fun name d => if name ∈ cols then Dtype.text else d) t.header t.dtypes
  rows := t.rows.map fun r =>
    List.zipWith (fun name v => if name ∈ cols then cleanCell cs v else v) t.header r

/-! ### Character facts for the ASCII case maps -/

theorem char_toNat_ofNat (n : Nat) (h : n.isValidChar) : (Char.ofNat n).toNat = n := by
  simp only [Char.ofNat, dif_pos h, Char.ofNatAux, Char.toNat, UInt32.toNat]
  exact BitVec.toNat_ofNatLt n _

theorem char_eq_of_toNat_eq {c d : Char} (h : c.toNat = d.toNat) : c = d :=
  Char.eq_of_val_eq (UInt32.ext h)

theorem isWhitespace_toNat (c : Char) :
    c.isWhitespace = true ↔ c.toNat = 32 ∨ c.toNat = 9 ∨ c.toNat = 13 ∨ c.toNat = 10 := by
  unfold Char.isWhitespace
  simp only [Bool.or_eq_true, decide_eq_true_eq]
  constructor
  · rintro (((h | h) | h) | h) <;> subst h <;> decide
  · rintro (h | h | h | h)
    · exact Or.inl (Or.inl (Or.inl (char_eq_of_toNat_eq h)))
    · exact Or.inl (Or.inl (Or.inr (char_eq_of_toNat_eq h)))
    · exact Or.inl (Or.inr (char_eq_of_toNat_eq h))
    · exact Or.inr (char_eq_of_toNat_eq h)

theorem isAlpha_toNat (c : Char) :
    c.isAlpha = true ↔ (65 ≤ c.toNat ∧ c.toNat ≤ 90) ∨ (97 ≤ c.toNat ∧ c.toNat ≤ 122) := by
  unfold Char.isAlpha Char.isUpper Char.isLower
  simp only [Bool.or_eq_true, Bool.and_eq_true, decide_eq_true_eq]
  constructor
  · rintro (⟨h1, h2⟩ | ⟨h1, h2⟩)
    · exact Or.inl ⟨h1, h2⟩
    · exact Or.inr ⟨h1, h2⟩
  · rintro (⟨h1, h2⟩ | ⟨h1, h2⟩)
    · exact Or.inl ⟨h1, h2⟩
    · exact Or.inr ⟨h1, h2⟩

theorem toLower_toNat_of_upper {c : Char} (h : 65 ≤ c.toNat ∧ c.toNat ≤ 90) :
    c.toLower.toNat = c.toNat + 32 := by
  unfold Char.toLower
  rw [if_pos ⟨h.1, h.2⟩]
  exact char_toNat_ofNat _ (Or.inl (by omega))

theorem toLower_eq_of_not_upper {c : Char} (h : ¬(65 ≤ c.toNat ∧ c.toNat ≤ 90)) :
    c.toLower = c := by
  unfold Char.toLower
  rw [if_neg h]

theorem toUpper_toNat_of_lower {c : Char} (h : 97 ≤ c.toNat ∧ c.toNat ≤ 122) :
    c.toUpper.toNat = c.toNat - 32 := by
  unfold Char.toUpper
  rw [if_pos ⟨h.1, h.2⟩]
  exact char_toNat_ofNat _ (Or.inl (by omega))

theorem toUpper_eq_of_not_lower {c : Char} (h : ¬(97 ≤ c.toNat ∧ c.toNat ≤ 122)) :
    c.toUpper = c := by
  unfold Char.toUpper
  rw [if_neg h]

theorem toLower_toLower (c : Char) : c.toLower.toLower = c.toLower := by
  by_cases h : 65 ≤ c.toNat ∧ c.toNat ≤ 90
  · have h2 := toLower_toNat_of_upper h
    exact toLower_eq_of_not_upper (by omega)
  · rw [toLower_eq_of_not_upper h, toLower_eq_of_not_upper h]

theorem toUpper_toUpper (c : Char) : c.toUpper.toUpper = c.toUpper := by
  by_cases h : 97 ≤ c.toNat ∧ c.toNat ≤ 122
  · have h2 := toUpper_toNat_of_lower h
    exact toUpper_eq_of_not_lower (by omega)
  · rw [toUpper_eq_of_not_lower h, toUpper_eq_of_not_lower h]

theorem isAlpha_toLower (c : Char) : c.toLower.isAlpha = c.isAlpha := by
  by_cases h : 65 ≤ c.toNat ∧ c.toNat ≤ 90
  · have h2 := toLower_toNat_of_upper h
    have ha : c.toLower.isAlpha = true := (isAlpha_toNat _).mpr (Or.inr (by omega))
    have hb : c.isAlpha = true := (isAlpha_toNat _).mpr (Or.inl (by omega))
    rw [ha, hb]
  · rw [toLower_eq_of_not_upper h]

theorem isAlpha_toUpper (c : Char) : c.toUpper.isAlpha = c.isAlpha := by
  by_cases h : 97 ≤ c.toNat ∧ c.toNat ≤ 122
  · have h2 := toUpper_toNat_of_lower h
    have ha : c.toUpper.isAlpha = true := (isAlpha_toNat _).mpr (Or.inl (by omega))
    have hb : c.isAlpha = true := (isAlpha_toNat _).mpr (Or.inr (by omega))
    rw [ha, hb]
  · rw [toUpper_eq_of_not_lower h]

theorem isWhitespace_toLower (c : Char) : c.toLower.isWhitespace = c.isWhitespace := by
  by_cases h : 65 ≤ c.toNat ∧ c.toNat ≤ 90
  · have h2 := toLower_toNat_of_upper h
    have ha : c.toLower.isWhitespace = false := by
      rw [← Bool.not_eq_true, isWhitespace_toNat]
      omega
    have hb : c.isWhitespace = false := by
      rw [← Bool.not_eq_true, isWhitespace_toNat]
      omega
    rw [ha, hb]
  · rw [toLower_eq_of_not_upper h]

theorem isWhitespace_toUpper (c : Char) : c.toUpper.isWhitespace = c.isWhitespace := by
  by_cases h : 97 ≤ c.toNat ∧ c.toNat ≤ 122
  · have h2 := toUpper_toNat_of_lower h
    have ha : c.toUpper.isWhitespace = false := by
      rw [← Bool.not_eq_true, isWhitespace_toNat]
      omega
    have hb : c.isWhitespace = false := by
      rw [← Bool.not_eq_true, isWhitespace_toNat]
      omega
    rw [ha, hb]
  · rw [toUpper_eq_of_not_lower h]

theorem toLower_of_isWhitespace {c : Char} (h : c.isWhitespace = true) : c.toLower = c := by
  rw [isWhitespace_toNat] at h
  exact toLower_eq_of_not_upper (by omega)

theorem toUpper_of_isWhitespace {c : Char} (h : c.isWhitespace = true) : c.toUpper = c := by
  rw [isWhitespace_toNat] at h
  exact toUpper_eq_of_not_lower (by omega)

theorem not_isAlpha_of_isWhitespace {c : Char} (h : c.isWhitespace = true) :
    c.isAlpha = false := by
  rw [isWhitespace_toNat] at h
  rw [← Bool.not_eq_true, isAlpha_toNat]
  omega

/-! ### Whitespace normal forms

The output of the collapse-and-strip passes is characterised by three
boolean predicates: every whitespace character is a plain space and no two
adjacent characters are whitespace (`spaceSep`), no leading whitespace
(`headWs` is false) and no trailing whitespace (`noTrailWs`).  Casing
preserves this normal form, which yields idempotence of the pipeline. -/

/-- Every whitespace character is a plain space, and no whitespace character
is immediately followed by another one. -/
def spaceSep : List Char → Bool
  | [] => true
  | c :: t => (if c.isWhitespace then c == ' ' && !(headWs t) else true) && spaceSep t

/-- The list does not end in a whitespace character. -/
def noTrailWs : List Char → Bool
  | [] => true
  | c :: t => if t.isEmpty then !c.isWhitespace else noTrailWs t

theorem spaceSep_tail {c : Char} {t : List Char} (h : spaceSep (c :: t) = true) :
    spaceSep t = true := by
  simp only [spaceSep, Bool.and_eq_true] at h
  exact h.2

theorem spaceSep_head_space {c : Char} {t : List Char} (h : spaceSep (c :: t) = true)
    (hw : c.isWhitespace = true) : c = ' ' ∧ headWs t = false := by
  simp only [spaceSep, Bool.and_eq_true] at h
  rw [if_pos hw] at h
  simp only [Bool.and_eq_true] at h
  exact ⟨by simpa using h.1.1, by simpa using h.1.2⟩

theorem headWs_collapseWsAux_true (l : List Char) :
    headWs (collapseWsAux true l) = false := by
  induction l with
  | nil => rfl
  | cons c cs ih =>
    by_cases h : c.isWhitespace
    · simpa only [collapseWsAux, h, if_true] using ih
    · simp [collapseWsAux, h, headWs]

theorem spaceSep_collapseWsAux (b : Bool) (l : List Char) :
    spaceSep (collapseWsAux b l) = true := by
  induction l generalizing b with
  | nil => rfl
  | cons c cs ih =>
    by_cases h : c.isWhitespace
    · cases b
      · simp only [collapseWsAux, h, if_true, Bool.false_eq_true, if_false, spaceSep,
          Bool.and_eq_true]
        refine ⟨?_, ih true⟩
        rw [if_pos (by decide)]
        simp [headWs_collapseWsAux_true cs]
      · simpa only [collapseWsAux, h, if_true] using ih true
    · simp only [collapseWsAux, h, Bool.false_eq_true, if_false, spaceSep, Bool.and_eq_true]
      exact ⟨by simp [h], ih false⟩

theorem spaceSep_dropWhile {l : List Char} (h : spaceSep l = true) :
    spaceSep (l.dropWhile Char.isWhitespace) = true := by
  induction l with
  | nil => exact h
  | cons c cs ih =>
    rw [List.dropWhile_cons]
    split
    · exact ih (spaceSep_tail h)
    · exact h

theorem headWs_dropWhile (l : List Char) :
    headWs (l.dropWhile Char.isWhitespace) = false := by
  induction l with
  | nil => rfl
  | cons c cs ih =>
    rw [List.dropWhile_cons]
    split
    · exact ih
    · next h => simp [headWs, h]

theorem noTrailWs_dropTrailWs (l : List Char) : noTrailWs (dropTrailWs l) = true := by
  induction l with
  | nil => rfl
  | cons c t ih =>
    simp only [dropTrailWs]
    by_cases he : (dropTrailWs t).isEmpty
    · rw [if_pos he]
      by_cases hw : c.isWhitespace
      · simp [hw, noTrailWs]
      · simp [hw, noTrailWs]
    · rw [if_neg he]
      simp only [noTrailWs]
      rw [if_neg he]
      exact ih

theorem headWs_dropTrailWs {l : List Char} (h : headWs l = false) :
    headWs (dropTrailWs l) = false := by
  cases l with
  | nil => rfl
  | cons c t =>
    simp only [dropTrailWs]
    by_cases he : (dropTrailWs t).isEmpty
    · rw [if_pos he]
      by_cases hw : c.isWhitespace
      · simp [hw, headWs]
      · simp [hw, headWs]
    · rw [if_neg he]
      simpa [headWs] using h

theorem spaceSep_dropTrailWs {l : List Char} (h : spaceSep l = true) :
    spaceSep (dropTrailWs l) = true := by
  induction l with
  | nil => exact h
  | cons c t ih =>
    simp only [dropTrailWs]
    by_cases he : (dropTrailWs t).isEmpty
    · rw [if_pos he]
      by_cases hw : c.isWhitespace
      · simp [hw, spaceSep]
      · simp [hw, spaceSep, headWs]
    · rw [if_neg he]
      simp only [spaceSep, Bool.and_eq_true]
      refine ⟨?_, ih (spaceSep_tail h)⟩
      by_cases hw : c.isWhitespace
      · rw [if_pos hw]
        obtain ⟨hc, hh⟩ := spaceSep_head_space h hw
        have hdt : headWs (dropTrailWs t) = false := headWs_dropTrailWs hh
        simp [hc, hdt]
      · rw [if_neg hw]

theorem collapseWsAux_eq_self {l : List Char} (b : Bool) (hs : spaceSep l = true)
    (ht : noTrailWs l = true) (hb : b = true → headWs l = false) :
    collapseWsAux b l = l := by
  induction l generalizing b with
  | nil => rfl
  | cons c t ih =>
    by_cases hw : c.isWhitespace
    · cases b
      · simp only [collapseWsAux, hw, if_true, Bool.false_eq_true, if_false]
        obtain ⟨hc, hh⟩ := spaceSep_head_space hs hw
        have hne : t ≠ [] := by
          intro h0
          subst h0
          simp only [noTrailWs, List.isEmpty_nil, if_true] at ht
          simp [hw] at ht
        have ht' : noTrailWs t = true := by
          simpa only [noTrailWs, List.isEmpty_eq_true, if_neg hne] using ht
        rw [ih true (spaceSep_tail hs) ht' (fun _ => hh), hc]
      · exact absurd (hb rfl) (by simp [headWs, hw])
    · simp only [collapseWsAux, hw, Bool.false_eq_true, if_false]
      by_cases hne : t = []
      · subst hne
        rfl
      · have ht' : noTrailWs t = true := by
          simpa only [noTrailWs, List.isEmpty_eq_true, if_neg hne] using ht
        rw [ih false (spaceSep_tail hs) ht' (by simp)]

theorem dropWhile_eq_self_of_headWs {l : List Char} (h : headWs l = false) :
    l.dropWhile Char.isWhitespace = l := by
  cases l with
  | nil => rfl
  | cons c t =>
    rw [List.dropWhile_cons, if_neg]
    simpa [headWs] using h

theorem dropTrailWs_eq_self {l : List Char} (h : noTrailWs l = true) :
    dropTrailWs l = l := by
  induction l with
  | nil => rfl
  | cons c t ih =>
    by_cases hne : t = []
    · subst hne
      have hw : c.isWhitespace = false := by
        simpa only [noTrailWs, List.isEmpty_nil, if_true, Bool.not_eq_true'] using h
      simp [dropTrailWs, hw]
    · have ht : noTrailWs t = true := by
        simpa only [noTrailWs, List.isEmpty_eq_true, if_neg hne] using h
      have hdt := ih ht
      simp only [dropTrailWs, hdt]
      rw [if_neg (by simpa [List.isEmpty_eq_true] using hne)]

/-! ### Casing preserves the whitespace shape -/

/-- Positional correspondence between a list and its image under a casing
pass: whitespace classification is preserved at every position and
whitespace characters are kept literally unchanged. -/
inductive WsMatch : List Char → List Char → Prop
  | nil : WsMatch [] []
  | cons {c d : Char} {t u : List Char} (hw : d.isWhitespace = c.isWhitespace)
      (hfix : c.isWhitespace = true → d = c) (ht : WsMatch t u) :
      WsMatch (c :: t) (d :: u)

theorem WsMatch.headWs_eq {l u : List Char} (h : WsMatch l u) : headWs u = headWs l := by
  cases h with
  | nil => rfl
  | cons hw _ _ => simpa [headWs] using hw

theorem WsMatch.spaceSep_of {l u : List Char} (h : WsMatch l u)
    (hs : spaceSep l = true) : spaceSep u = true := by
  induction h with
  | nil => rfl
  | @cons c d t u hw hfix ht ih =>
    simp only [spaceSep, Bool.and_eq_true]
    refine ⟨?_, ih (spaceSep_tail hs)⟩
    by_cases hwc : c.isWhitespace
    · obtain ⟨hc, hh⟩ := spaceSep_head_space hs hwc
      rw [if_pos (by rw [hw]; exact hwc)]
      rw [hfix hwc, hc]
      simp [ht.headWs_eq, hh]
    · rw [if_neg (by rw [hw]; exact hwc)]

theorem WsMatch.noTrailWs_of {l u : List Char} (h : WsMatch l u)
    (hn : noTrailWs l = true) : noTrailWs u = true := by
  induction h with
  | nil => rfl
  | @cons c d t u hw hfix ht ih =>
    cases ht with
    | nil =>
      have hwc : c.isWhitespace = false := by
        simpa only [noTrailWs, List.isEmpty_nil, if_true, Bool.not_eq_true'] using hn
      simp only [noTrailWs, List.isEmpty_nil, if_true, Bool.not_eq_true']
      rw [hw, hwc]
    | @cons c' d' t' u' hw' hfix' ht' =>
      have hn' : noTrailWs (c' :: t') = true := by
        simpa only [noTrailWs, List.isEmpty_cons, Bool.false_eq_true, if_false] using hn
      have hu := ih hn'
      simpa only [noTrailWs, List.isEmpty_cons, Bool.false_eq_true, if_false] using hu

theorem wsMatch_map_toLower (l : List Char) : WsMatch l (l.map Char.toLower) := by
  induction l with
  | nil => exact WsMatch.nil
  | cons c t ih =>
    exact WsMatch.cons (isWhitespace_toLower c) (fun h => toLower_of_isWhitespace h) ih

theorem wsMatch_map_toUpper (l : List Char) : WsMatch l (l.map Char.toUpper) := by
  induction l with
  | nil => exact WsMatch.nil
  | cons c t ih =>
    exact WsMatch.cons (isWhitespace_toUpper c) (fun h => toUpper_of_isWhitespace h) ih

theorem wsMatch_titleAux (b : Bool) (l : List Char) : WsMatch l (titleAux b l) := by
  induction l generalizing b with
  | nil => exact WsMatch.nil
  | cons c t ih =>
    by_cases h : c.isAlpha
    · simp only [titleAux, h, if_true]
      cases b
      · exact WsMatch.cons (isWhitespace_toUpper c)
          (fun hw => absurd h (by simp [not_isAlpha_of_isWhitespace hw])) (ih true)
      · exact WsMatch.cons (isWhitespace_toLower c)
          (fun hw => absurd h (by simp [not_isAlpha_of_isWhitespace hw])) (ih true)
    · simp only [titleAux, h, Bool.false_eq_true, if_false]
      exact WsMatch.cons rfl (fun _ => rfl) (ih false)

theorem wsMatch_applyCasing (cs : Casing) (l : List Char) : WsMatch l (applyCasing cs l) := by
  cases cs with
  | title => exact wsMatch_titleAux false l
  | lower => exact wsMatch_map_toLower l
  | upper => exact wsMatch_map_toUpper l

/-! ### Casing is idempotent -/

theorem titleAux_titleAux (b : Bool) (l : List Char) :
    titleAux b (titleAux b l) = titleAux b l := by
  induction l generalizing b with
  | nil => rfl
  | cons c t ih =>
    by_cases h : c.isAlpha
    · cases b
      · simp only [titleAux, h, if_true, Bool.false_eq_true, if_false, isAlpha_toUpper,
          toUpper_toUpper]
        rw [ih true]
      · simp only [titleAux, h, if_true, isAlpha_toLower, toLower_toLower]
        rw [ih true]
    · simp only [titleAux, h, Bool.false_eq_true, if_false]
      rw [ih false]

theorem applyCasing_applyCasing (cs : Casing) (l : List Char) :
    applyCasing cs (applyCasing cs l) = applyCasing cs l := by
  cases cs with
  | title => exact titleAux_titleAux false l
  | lower => simp [applyCasing, List.map_map, Function.comp_def, toLower_toLower]
  | upper => simp [applyCasing, List.map_map, Function.comp_def, toUpper_toUpper]

/-! ### Idempotence of the cleaning pipeline -/

/-- Character lists already in cleaned normal form are fixed by the whole
collapse-strip-case pipeline. -/
theorem clean_fixed_point {l : List Char} (hs : spaceSep l = true)
    (hh : headWs l = false) (hn : noTrailWs l = true) :
    stripWs (collapseWs l) = l := by
  unfold collapseWs stripWs
  rw [collapseWsAux_eq_self false hs hn (by simp), dropWhile_eq_self_of_headWs hh,
    dropTrailWs_eq_self hn]

/-- `cleanStr` is idempotent: cleaning a cleaned string changes nothing. -/
theorem cleanStr_cleanStr (cs : Casing) (s : String) :
    cleanStr cs (cleanStr cs s) = cleanStr cs s := by
  unfold cleanStr
  have hy1 : spaceSep (stripWs (collapseWs s.data)) = true :=
    spaceSep_dropTrailWs (spaceSep_dropWhile (spaceSep_collapseWsAux false s.data))
  have hy2 : headWs (stripWs (collapseWs s.data)) = false :=
    headWs_dropTrailWs (headWs_dropWhile _)
  have hy3 : noTrailWs (stripWs (collapseWs s.data)) = true :=
    noTrailWs_dropTrailWs _
  set y := stripWs (collapseWs s.data) with hy
  have hm : WsMatch y (applyCasing cs y) := wsMatch_applyCasing cs y
  have hz1 : spaceSep (applyCasing cs y) = true := hm.spaceSep_of hy1
  have hz2 : headWs (applyCasing cs y) = false := by rw [hm.headWs_eq]; exact hy2
  have hz3 : noTrailWs (applyCasing cs y) = true := hm.noTrailWs_of hy3
  show String.mk (applyCasing cs (stripWs (collapseWs (applyCasing cs y)))) = String.mk _
  rw [clean_fixed_point hz1 hz2 hz3, applyCasing_applyCasing]

theorem cleanCell_cleanCell (cs : Casing) (v : Value) :
    cleanCell cs (cleanCell cs v) = cleanCell cs v := by
  cases v with
  | null => rfl
  | str s => simp [cleanCell, cleanStr_cleanStr]
  | num q => simp [cleanCell, cleanStr_cleanStr]

theorem zipWith_cleanCell_idem (cs : Casing) (cols : List String) (h : List String)
    (r : List Value) :
    List.zipWith (fun name v => if name ∈ cols then cleanCell cs v else v) h
      (List.zipWith (fun name v => if name ∈ cols then cleanCell cs v else v) h r) =
    List.zipWith (fun name v => if name ∈ cols then cleanCell cs v else v) h r := by
  induction h generalizing r with
  | nil => rfl
  | cons n ns ih =>
    cases r with
    | nil => rfl
    | cons v vs =>
      simp only [List.zipWith_cons_cons]
      by_cases hm : n ∈ cols
      · simp [hm, cleanCell_cleanCell, ih]
      · simp [hm, ih]

theorem zipWith_dtype_idem (cols : List String) (h : List String) (d : List Dtype) :
    List.zipWith (fun name x => if name ∈ cols then Dtype.text else x) h
      (List.zipWith (fun name x => if name ∈ cols then Dtype.text else x) h d) =
    List.zipWith (fun name x => if name ∈ cols then Dtype.text else x) h d := by
  induction h generalizing d with
  | nil => rfl
  | cons n ns ih =>
    cases d with
    | nil => rfl
    | cons x xs =>
      simp only [List.zipWith_cons_cons]
      by_cases hm : n ∈ cols
      · simp [hm, ih]
      · simp [hm, ih]

/-- **C5.** For every Table `T`, every selection of columns `cols` and every
casing mode among title, lower and upper, applying the Clean operator
(`clean_names`) twice with the same arguments equals applying it once:
`Clean(Clean(T, cols, casing), cols, casing) = Clean(T, cols, casing)`. -/
theorem claim_C5_clean_idempotent (t : Table) (cols : List String) (cs : Casing) :
    clean_names (clean_names t cols cs) cols cs = clean_names t cols cs := by
  unfold clean_names
  simp only [Table.mk.injEq, true_and]
  refine ⟨zipWith_dtype_idem cols t.header t.dtypes, ?_⟩
  rw [List.map_map]
  apply List.map_congr_left
  intro r _
  exact zipWith_cleanCell_idem cs cols t.header r

/-! ## The Filter operator (`filter_data`)

`filter_data` interactively collects a column and a comparison value; the
pure core below takes them as parameters.  The outcome value models what the
procedure reports: a normal application (with the zero-row warning flag), the
caught `ValueError` from `float(value)` (`[ERROR] Could not compare ...`), a
caught unexpected exception, or the skip paths (`[INFO] ... Skipping
filter.`). -/

/-- What `filter_data` reports to the interactive caller. -/
inductive FilterOutcome where
  | applied (zeroRows : Bool) : FilterOutcome
  | invalidValue : FilterOutcome
  | otherError : FilterOutcome
  | skipped : FilterOutcome
deriving DecidableEq, Repr

/-- Cell of a row at column position `i` (rows are aligned with the header;
a short row reads as null, matching a missing value). -/
def cellAt (r : List Value) (i : Nat) : Value := r.getD i .null

/-- Digit run to the number it denotes. -/
def natOfDigits (l : List Char) : Nat := l.foldl (fun a c => a * 10 + (c.toNat - 48)) 0

/-- Modelled from the Python builtin `float`: optional sign, then digits
with an optional decimal point (`d+`, `d+.d*` or `.d+`).  Scientific
notation, infinities and `nan` are outside the modelled fragment.  Returns
`none` exactly when `float(value)` raises `ValueError` on the fragment. -/
def parseFloat (s : String) : Option Rat :=
  let l := s.data
  let signAndBody : Rat × List Char :=
    match l with
    | '-' :: t => (-1, t)
    | '+' :: t => (1, t)
    | t => (1, t)
  let sign := signAndBody.1
  let body := signAndBody.2
  let intPart := body.takeWhile Char.isDigit
  let rest := body.drop intPart.length
  match rest with
  | [] =>
    if intPart.isEmpty then none
    else some (sign * (natOfDigits intPart : Rat))
  | '.' :: frac =>
    if frac.all Char.isDigit && !(intPart.isEmpty && frac.isEmpty) then
      some (sign * ((natOfDigits intPart : Rat) +
        (natOfDigits frac : Rat) / ((10 : Rat) ^ frac.length)))
    else none
  | _ => none

/-- Python `str.lower()` on the modelled fragment. -/
def lowerStr (s : String) : String := ⟨s.data.map Char.toLower⟩

/-- `.astype(str)` on a cell: every cell becomes its string form; the
conversion happens before the empty-string fill, so a null cell becomes the
literal text `"nan"`. -/
def astypeStr (v : Value) : Value := .str (stringifyVal v)

/-- `.fillna('')`: nulls become the empty string.  Applied after
`astypeStr` it is the identity, since no null survives the stringification. -/
def fillnaEmpty (v : Value) : Value :=
  match v with
  | .null => .str ""
  | v => v

theorem fillnaEmpty_astypeStr (v : Value) : fillnaEmpty (astypeStr v) = astypeStr v := by
  cases v <;> rfl

/-- The key used on each cell by the non-numeric branch of `filter_data`:
`.astype(str).fillna('').str.strip().str.lower()`. -/
def nonNumericKey (v : Value) : String :=
  match fillnaEmpty (astypeStr v) with
  | .str s => lowerStr ⟨stripWs s.data⟩
  | .null => ""
  | .num _ => ""

/-- `filter_data(df)` with the prompted column and raw value as parameters.
The value is stripped as `input(...).strip()` does; an empty entry skips the
filter.  A numeric column compares by parsed-float equality (`ValueError`
is caught and reported, the input frame is returned); any other column
compares the stringified, trimmed, lowercased cell against the lowercased
value.  A column that vanished from the frame raises `KeyError` inside the
`try`, caught by the generic handler. -/
def filter_data (t : Table) (col : String) (rawValue : String) : Table × FilterOutcome :=
  if (⟨stripWs rawValue.data⟩ : String) = "" then (t, .skipped)
  else
    match t.header.indexOf? col with
    | none => (t, .otherError)
    | some i =>
      match t.dtypes.getD i .text with
      | .number =>
        match parseFloat ⟨stripWs rawValue.data⟩ with
        | none => (t, .invalidValue)
        | some q =>
          (⟨t.header, t.dtypes, t.rows.filter fun r => cellAt r i == Value.num q⟩,
            .applied (t.rows.filter fun r => cellAt r i == Value.num q).isEmpty)
      | .text =>
        (⟨t.header, t.dtypes, t.rows.filter fun r =>
            nonNumericKey (cellAt r i) == lowerStr ⟨stripWs rawValue.data⟩⟩,
          .applied (t.rows.filter fun r =>
            nonNumericKey (cellAt r i) == lowerStr ⟨stripWs rawValue.data⟩).isEmpty)

/-- **C8.** For every Table `T` and every filter request, `filter_data`
returns a Table whose rows are a sub-multiset (in fact a sublist) of the
rows of `T` and whose column names, order and dtypes equal those of `T`
exactly; an empty result is a valid outcome reported as a flagged zero-row
application, not as an error. -/
theorem claim_C8_filter_subset (t : Table) (col v : String) :
    (filter_data t col v).1.header = t.header ∧
    (filter_data t col v).1.dtypes = t.dtypes ∧
    (filter_data t col v).1.rows.Sublist t.rows ∧
    (∀ z : Bool, (filter_data t col v).2 = .applied z →
      z = (filter_data t col v).1.rows.isEmpty ∧
      FilterOutcome.applied z ≠ .invalidValue ∧ FilterOutcome.applied z ≠ .otherError) := by
  unfold filter_data
  split
  · exact ⟨rfl, rfl, List.Sublist.refl _, fun z h => by simp at h⟩
  · split
    · exact ⟨rfl, rfl, List.Sublist.refl _, fun z h => by simp at h⟩
    · split
      · split
        · exact ⟨rfl, rfl, List.Sublist.refl _, fun z h => by simp at h⟩
        · refine ⟨rfl, rfl, List.filter_sublist _, fun z h => ?_⟩
          simp only [FilterOutcome.applied.injEq] at h
          exact ⟨h.symm, by simp, by simp⟩
      · refine ⟨rfl, rfl, List.filter_sublist _, fun z h => ?_⟩
        simp only [FilterOutcome.applied.injEq] at h
        exact ⟨h.symm, by simp, by simp⟩

/-- **C7.** For every Table whose filter column is numeric and every filter
value that does not parse as a number, `filter_data` reports the caught
`ValueError` (the `InvalidFilterValue` condition) and returns the input
Table unchanged; that outcome is distinguishable from a successful
application and from the no-op skip. -/
theorem claim_C7_numeric_parse_failure (t : Table) (col v : String) (i : Nat)
    (hne : (⟨stripWs v.data⟩ : String) ≠ "")
    (hidx : t.header.indexOf? col = some i)
    (hdt : t.dtypes.getD i .text = .number)
    (hp : parseFloat ⟨stripWs v.data⟩ = none) :
    filter_data t col v = (t, .invalidValue) ∧
    (∀ z : Bool, FilterOutcome.invalidValue ≠ .applied z) ∧
    FilterOutcome.invalidValue ≠ .skipped := by
  refine ⟨?_, fun z => by simp, by simp⟩
  simp only [filter_data, if_neg hne, hidx, hdt, hp]

/-- Witness for C7: a one-column numeric table filtered on the value
`"abc"`, which does not parse as a float. -/
theorem claim_C7_numeric_parse_failure_witness :
    filter_data ⟨["amount"], [.number], [[.num 1]]⟩ "amount" "abc" =
      (⟨["amount"], [.number], [[.num 1]]⟩, .invalidValue) :=
  (claim_C7_numeric_parse_failure ⟨["amount"], [.number], [[.num 1]]⟩ "amount" "abc" 0
    (by decide) (by decide) (by decide) (by decide)).1

/-- **C10.** For every Table with a non-numeric filter column containing
null cells, `filter_data` stringifies cells before comparing (`astype(str)`
runs before `fillna('')`, turning nulls into the text `"nan"`), so
filtering that column on a value whose trimmed lowercase form is `"nan"`
retains the rows whose cell is null instead of excluding them. -/
theorem claim_C10_null_rows_match_nan (t : Table) (col v : String) (i : Nat)
    (r : List Value)
    (hne : (⟨stripWs v.data⟩ : String) ≠ "")
    (hidx : t.header.indexOf? col = some i)
    (hdt : t.dtypes.getD i .text = .text)
    (hv : lowerStr ⟨stripWs v.data⟩ = "nan")
    (hr : r ∈ t.rows) (hcell : cellAt r i = .null) :
    r ∈ (filter_data t col v).1.rows := by
  simp only [filter_data, if_neg hne, hidx, hdt]
  rw [List.mem_filter]
  refine ⟨hr, ?_⟩
  rw [hcell, hv]
  decide

/-- Witness for C10: a text column with a null cell, filtered on `"NaN"`
(mixed casing); the null row is retained. -/
theorem claim_C10_null_rows_match_nan_witness :
    [Value.null] ∈
      (filter_data ⟨["state"], [.text], [[.null], [.str "CA"]]⟩ "state" "NaN").1.rows :=
  claim_C10_null_rows_match_nan ⟨["state"], [.text], [[.null], [.str "CA"]]⟩ "state" "NaN" 0
    [Value.null] (by decide) (by decide) (by decide) (by decide) (by decide) (by decide)

/-! ## The Aggregate operator (`aggregate_data`)

`aggregate_data` interactively collects grouping columns, target columns and
per-column reduction-function lists, then runs
`df.groupby(group_cols, dropna=False).agg(agg_map).reset_index()` followed
by `_flatten_agg_columns`.  The pure core below takes the collected
parameters directly. -/

/-- The reduction functions offered per column by `aggregate_data`
(numeric: sum, mean, median, min, max, count, nunique; datetime: min, max,
count, nunique; other: count, nunique, mode via `_mode_series`). -/
inductive AggFn where
  | sum : AggFn
  | mean : AggFn
  | median : AggFn
  | min : AggFn
  | max : AggFn
  | count : AggFn
  | nunique : AggFn
  | mode : AggFn
deriving DecidableEq, Repr

/-- The function name as typed by the user and as it appears in the pandas
MultiIndex (the custom mode reducer sets `__name__ = "mode"`). -/
def AggFn.fname : AggFn → String
  | .sum => "sum"
  | .mean => "mean"
  | .median => "median"
  | .min => "min"
  | .max => "max"
  | .count => "count"
  | .nunique => "nunique"
  | .mode => "mode"

/-- The numeric entries of a column slice (aggregations skip nulls, pandas
`skipna` semantics). -/
def numsOf (vals : List Value) : List Rat :=
  vals.filterMap fun v => match v with | .num q => some q | _ => none

/-- `x.dropna().mode()` with the first entry taken (`_mode_series`): a
non-null value of maximal multiplicity.  Pandas breaks ties by sorted
order; the model takes the first value reaching the maximal count, a
tie-break no claim depends on. -/
def modeVal (vals : List Value) : Value :=
  let nn := vals.filter fun v => v ≠ .null
  match nn.find? (fun v => nn.count v = (nn.map fun w => nn.count w).foldr Nat.max 0) with
  | some v => v
  | none => .null

/-- Median of the numeric entries: middle of the sorted list, or the mean
of the two middles for an even count. -/
def medianVal (vals : List Value) : Value :=
  let sorted := (numsOf vals).insertionSort (· ≤ ·)
  let n := sorted.length
  if n = 0 then .null
  else if n % 2 = 1 then .num (sorted.getD (n / 2) 0)
  else .num ((sorted.getD (n / 2 - 1) 0 + sorted.getD (n / 2) 0) / 2)

/-- Apply one reduction to one group's column slice. -/
def AggFn.apply : AggFn → List Value → Value
  | .sum, vals => .num (numsOf vals).sum
  | .mean, vals =>
    if (numsOf vals).isEmpty then .null
    else .num ((numsOf vals).sum / ((numsOf vals).length : Rat))
  | .median, vals => medianVal vals
  | .min, vals => match (numsOf vals).min? with | some q => .num q | none => .null
  | .max, vals => match (numsOf vals).max? with | some q => .num q | none => .null
  | .count, vals => .num ((vals.filter fun v => v ≠ .null).length : Rat)
  | .nunique, vals => .num ((vals.filter fun v => v ≠ .null).dedup.length : Rat)
  | .mode, vals => modeVal vals

/-- Dtype of an aggregated column (mode keeps the source dtype, every other
reduction yields a numeric column). -/
def AggFn.outDtype : AggFn → Dtype → Dtype
  | .mode, d => d
  | _, _ => .number

/-- `.strip("_")`: remove leading and trailing underscores. -/
def stripUnderscores (l : List Char) : List Char :=
  ((l.dropWhile fun c => c = '_').reverse.dropWhile fun c => c = '_').reverse

/-- `_flatten_agg_columns` on one MultiIndex entry `(l0, l1)`: join the
non-empty levels with an underscore and strip edge underscores, yielding
the `col_func` style names (a plain `col` for the group levels whose second
component is empty). -/
def flattenName (l0 l1 : String) : String :=
  ⟨stripUnderscores (String.intercalate "_" ([l0, l1].filter fun s => s ≠ "")).data⟩

/-- Insert one row into the association list of groups, keyed by its
group-key tuple. -/
def insertGrouped (key : List Value) (r : List Value) :
    List (List Value × List (List Value)) → List (List Value × List (List Value))
  | [] => [(key, [r])]
  | (k, rs) :: rest =>
    if k = key then (k, rs ++ [r]) :: rest else (k, rs) :: insertGrouped key r rest

/-- `df.groupby(group_cols, dropna=False)`: rows grouped by their key
tuples; null key values are ordinary keys (`dropna=False`), so rows with a
null grouping value form their own group instead of being dropped.  Groups
are kept in first-occurrence order; pandas additionally sorts the group
keys, which permutes result rows but changes neither their number nor their
content. -/
def groupRows (rows : List (List Value)) (gIdx : List Nat) :
    List (List Value × List (List Value)) :=
  rows.foldl (fun acc r => insertGrouped (gIdx.map (cellAt r)) r acc) []

/-- The group-key tuple of one row. -/
def keyOfRow (t : Table) (gcols : List String) (r : List Value) : List Value :=
  (gcols.map fun c => (t.header.indexOf? c).getD 0).map (cellAt r)

/-- `aggregate_data` core.  An empty grouping or function map is the
`[INFO] ... Skipping aggregation` path; a reference to a column absent from
the frame raises inside the `try` and is caught (`[ERROR] Aggregation
failed ... Skipping.`), returning the input frame.  The `Bool` is true when
aggregation succeeded. -/
def aggregate_data (t : Table) (gcols : List String)
    (aggMap : List (String × List AggFn)) : Table × Bool :=
  if gcols.isEmpty || aggMap.isEmpty then (t, false)
  else if (gcols.all fun c => c ∈ t.header) && (aggMap.all fun p => p.1 ∈ t.header) then
    (⟨gcols.map (fun g => flattenName g "") ++
        aggMap.flatMap (fun p => p.2.map fun f => flattenName p.1 f.fname),
      (gcols.map fun c => t.dtypes.getD ((t.header.indexOf? c).getD 0) .text) ++
        aggMap.flatMap (fun p => p.2.map fun f =>
          f.outDtype (t.dtypes.getD ((t.header.indexOf? p.1).getD 0) .text)),
      (groupRows t.rows (gcols.map fun c => (t.header.indexOf? c).getD 0)).map fun g =>
        g.1 ++ aggMap.flatMap fun p =>
          p.2.map fun f => f.apply (g.2.map fun r => cellAt r ((t.header.indexOf? p.1).getD 0))⟩,
      true)
  else (t, false)

/-! ### Group counting (C6) -/

/-- The keys of an association list of groups. -/
def keysOf (acc : List (List Value × List (List Value))) : List (List Value) :=
  acc.map Prod.fst

theorem keysOf_insertGrouped (key r : List Value)
    (acc : List (List Value × List (List Value))) :
    keysOf (insertGrouped key r acc) =
      if key ∈ keysOf acc then keysOf acc else keysOf acc ++ [key] := by
  induction acc with
  | nil => simp [insertGrouped, keysOf]
  | cons p rest ih =>
    obtain ⟨k, rs⟩ := p
    by_cases hk : k = key
    · subst hk
      simp [insertGrouped, keysOf, List.mem_cons]
    · simp only [insertGrouped, if_neg hk, keysOf, List.map_cons] at ih ⊢
      rw [ih]
      by_cases hm : key ∈ List.map Prod.fst rest
      · simp [hm, List.mem_cons, Ne.symm hk]
      · simp [hm, List.mem_cons, Ne.symm hk]

theorem mem_keysOf_foldl (gIdx : List Nat) (rows : List (List Value)) :
    ∀ (acc : List (List Value × List (List Value))) (k : List Value),
      k ∈ keysOf (rows.foldl (fun a r => insertGrouped (gIdx.map (cellAt r)) r a) acc) ↔
        k ∈ keysOf acc ∨ k ∈ rows.map fun r => gIdx.map (cellAt r) := by
  induction rows with
  | nil => simp
  | cons r rest ih =>
    intro acc k
    simp only [List.foldl_cons, List.map_cons, List.mem_cons]
    rw [ih]
    rw [keysOf_insertGrouped]
    by_cases hm : gIdx.map (cellAt r) ∈ keysOf acc
    · simp only [if_pos hm]
      constructor
      · rintro (h | h)
        · exact Or.inl h
        · exact Or.inr (Or.inr h)
      · rintro (h | h | h)
        · exact Or.inl h
        · exact Or.inl (h ▸ hm)
        · exact Or.inr h
    · simp only [if_neg hm, List.mem_append, List.mem_singleton]
      constructor
      · rintro ((h | h) | h)
        · exact Or.inl h
        · exact Or.inr (Or.inl h)
        · exact Or.inr (Or.inr h)
      · rintro (h | h | h)
        · exact Or.inl (Or.inl h)
        · exact Or.inl (Or.inr h)
        · exact Or.inr h

theorem nodup_keysOf_foldl (gIdx : List Nat) (rows : List (List Value)) :
    ∀ (acc : List (List Value × List (List Value))), (keysOf acc).Nodup →
      (keysOf (rows.foldl (fun a r => insertGrouped (gIdx.map (cellAt r)) r a) acc)).Nodup := by
  induction rows with
  | nil => exact fun acc h => h
  | cons r rest ih =>
    intro acc h
    simp only [List.foldl_cons]
    apply ih
    rw [keysOf_insertGrouped]
    by_cases hm : gIdx.map (cellAt r) ∈ keysOf acc
    · simpa [hm] using h
    · simp only [if_neg hm, List.nodup_append, List.disjoint_singleton]
      exact ⟨h, List.nodup_singleton _, hm⟩

/-- **C6.** For every Table `T` and every valid Aggregation Spec (non-empty
grouping columns and function map, all referenced columns present), the
number of rows of `aggregate_data` equals the number of distinct group-key
combinations present in `T`; key tuples containing nulls are ordinary keys
(`dropna=False`), so rows with a null grouping value form their own group
rather than being dropped. -/
theorem claim_C6_aggregate_row_count (t : Table) (gcols : List String)
    (aggMap : List (String × List AggFn))
    (hg : gcols ≠ []) (ha : aggMap ≠ [])
    (hgc : ∀ c ∈ gcols, c ∈ t.header) (hac : ∀ p ∈ aggMap, p.1 ∈ t.header) :
    (aggregate_data t gcols aggMap).1.rows.length =
      ((t.rows.map fun r => keyOfRow t gcols r).dedup).length := by
  have hcond : (gcols.isEmpty || aggMap.isEmpty) = false := by
    simp [List.isEmpty_eq_true, hg, ha]
  have hcols : ((gcols.all fun c => c ∈ t.header) && (aggMap.all fun p => p.1 ∈ t.header)) = true := by
    simp only [Bool.and_eq_true, List.all_eq_true, decide_eq_true_eq]
    exact ⟨hgc, hac⟩
  simp only [aggregate_data, hcond, Bool.false_eq_true, if_false, hcols, if_true]
  rw [List.length_map]
  have hlen : (groupRows t.rows (gcols.map fun c => (t.header.indexOf? c).getD 0)).length =
      (keysOf (groupRows t.rows (gcols.map fun c => (t.header.indexOf? c).getD 0))).length := by
    simp [keysOf]
  rw [hlen]
  set gIdx := gcols.map fun c => (t.header.indexOf? c).getD 0 with hgIdx
  have hnd : (keysOf (groupRows t.rows gIdx)).Nodup :=
    nodup_keysOf_foldl gIdx t.rows [] (by simp [keysOf])
  have hmem : ∀ k, k ∈ keysOf (groupRows t.rows gIdx) ↔
      k ∈ t.rows.map fun r => gIdx.map (cellAt r) := by
    intro k
    rw [groupRows, mem_keysOf_foldl]
    simp [keysOf]
  have hfin : (keysOf (groupRows t.rows gIdx)).toFinset =
      ((t.rows.map fun r => keyOfRow t gcols r).dedup).toFinset := by
    ext k
    simp only [List.mem_toFinset, List.mem_dedup, hmem, keyOfRow, hgIdx]
  calc (keysOf (groupRows t.rows gIdx)).length
      = (keysOf (groupRows t.rows gIdx)).toFinset.card :=
        (List.toFinset_card_of_nodup hnd).symm
    _ = ((t.rows.map fun r => keyOfRow t gcols r).dedup).toFinset.card := by rw [hfin]
    _ = ((t.rows.map fun r => keyOfRow t gcols r).dedup).length :=
        List.toFinset_card_of_nodup (List.nodup_dedup _)

/-- Witness for C6: grouping a three-row table (two rows sharing the id
`"a"`, one row with a null id) by `id` yields exactly two groups — the
null-keyed row keeps its own group. -/
theorem claim_C6_aggregate_row_count_witness :
    (aggregate_data ⟨["id", "amount"], [.text, .number],
        [[.str "a", .num 1], [.str "a", .num 2], [.null, .num 3]]⟩
      ["id"] [("amount", [.count])]).1.rows.length = 2 := by
  rw [claim_C6_aggregate_row_count ⟨["id", "amount"], [.text, .number],
        [[.str "a", .num 1], [.str "a", .num 2], [.null, .num 3]]⟩
      ["id"] [("amount", [.count])] (by decide) (by decide)
      (by decide) (by decide)]
  decide

/-! ### Aggregate column naming (C9)

`_flatten_agg_columns` joins the MultiIndex levels `(column, function)` in
that order, so a flattened result column reads `column_function`. -/

/-- Names whose flattening is untouched by the underscore strip: non-empty,
no leading and no trailing underscore. -/
def NoEdgeUnderscore (s : String) : Prop :=
  s ≠ "" ∧ s.data.head? ≠ some '_' ∧ s.data.getLast? ≠ some '_'

instance (s : String) : Decidable (NoEdgeUnderscore s) := by
  unfold NoEdgeUnderscore
  infer_instance

theorem dropWhile_underscore_eq_self {l : List Char} (h : l.head? ≠ some '_') :
    (l.dropWhile fun c => c = '_') = l := by
  cases l with
  | nil => rfl
  | cons c t =>
    rw [List.dropWhile_cons, if_neg]
    simp only [List.head?_cons, ne_eq, Option.some.injEq] at h
    simpa using h

theorem stripUnderscores_eq_self {l : List Char} (h1 : l.head? ≠ some '_')
    (h2 : l.getLast? ≠ some '_') : stripUnderscores l = l := by
  unfold stripUnderscores
  rw [dropWhile_underscore_eq_self h1]
  rw [dropWhile_underscore_eq_self (by rwa [List.head?_reverse])]
  exact List.reverse_reverse l

theorem flattenName_group {g : String} (h : NoEdgeUnderscore g) : flattenName g "" = g := by
  obtain ⟨hne, hh, hl⟩ := h
  unfold flattenName
  have hfilter : ([g, ""].filter fun s => s ≠ "") = [g] := by
    simp [List.filter, hne]
  rw [hfilter]
  have hone : String.intercalate "_" [g] = g := rfl
  rw [hone, stripUnderscores_eq_self hh hl]

theorem flattenName_agg {c f : String} (hc : c ≠ "") (hch : c.data.head? ≠ some '_')
    (hf : f ≠ "") (hfl : f.data.getLast? ≠ some '_') :
    flattenName c f = c ++ "_" ++ f := by
  unfold flattenName
  have hfilter : ([c, f].filter fun s => s ≠ "") = [c, f] := by
    simp [List.filter, hc, hf]
  rw [hfilter]
  have htwo : String.intercalate "_" [c, f] = c ++ "_" ++ f := rfl
  rw [htwo]
  apply String.ext
  have hdat : (c ++ "_" ++ f).data = c.data ++ ('_' :: f.data) := by
    simp [String.data_append]
  rw [hdat]
  apply stripUnderscores_eq_self
  · rw [List.head?_append]
    cases hd : c.data with
    | nil => exact absurd (String.ext hd) hc
    | cons a t =>
      rw [hd] at hch
      simpa using hch
  · rw [List.getLast?_append]
    cases hd : f.data with
    | nil => exact absurd (String.ext hd) hf
    | cons a t =>
      rw [List.getLast?_cons_cons]
      rw [hd] at hfl
      cases hg : (a :: t).getLast? with
      | none => simp [List.getLast?_eq_none_iff] at hg
      | some x =>
        rw [hg] at hfl
        simpa [hg] using hfl

theorem flatMap_congr {α β : Type} {l : List α} {f g : α → List β}
    (h : ∀ a ∈ l, f a = g a) : l.flatMap f = l.flatMap g := by
  induction l with
  | nil => rfl
  | cons a t ih =>
    simp only [List.flatMap_cons]
    rw [h a (List.mem_cons_self a t), ih fun x hx => h x (List.mem_cons_of_mem a hx)]

theorem fname_ne_empty (f : AggFn) : f.fname ≠ "" := by
  cases f <;> decide

theorem fname_getLast_ne (f : AggFn) : f.fname.data.getLast? ≠ some '_' := by
  cases f <;> decide

/-- Counterexample to C9 as stated: grouping by `id` and summing `amount`
names the result column `amount_sum` (column before function); the claimed
`sum_amount` does not occur. -/
theorem claim_C9_counterexample :
    (aggregate_data ⟨["id", "amount"], [.text, .number], [[.str "a", .num 1]]⟩
        ["id"] [("amount", [.sum])]).1.header = ["id", "amount_sum"] ∧
      "sum_amount" ∉ (aggregate_data ⟨["id", "amount"], [.text, .number], [[.str "a", .num 1]]⟩
        ["id"] [("amount", [.sum])]).1.header := by
  decide

/-- **C9 (amended).** For every aggregation whose spec assigns reduction
functions to target columns (names free of edge underscores), each result
column is named `<column>_<function>` — the deterministic composite the
code produces, with the column first — and for one column distinct
functions yield distinct names, so names do not collide when multiple
functions apply to one column. -/
theorem claim_C9_amended_column_function_names (t : Table) (gcols : List String)
    (aggMap : List (String × List AggFn))
    (hg : gcols ≠ []) (ha : aggMap ≠ [])
    (hgc : ∀ c ∈ gcols, c ∈ t.header) (hac : ∀ p ∈ aggMap, p.1 ∈ t.header)
    (hgu : ∀ c ∈ gcols, NoEdgeUnderscore c)
    (hau : ∀ p ∈ aggMap, p.1 ≠ "" ∧ p.1.data.head? ≠ some '_') :
    (aggregate_data t gcols aggMap).1.header =
      gcols ++ aggMap.flatMap (fun p => p.2.map fun f => p.1 ++ "_" ++ f.fname) ∧
    ∀ (c : String) (f1 f2 : AggFn), f1.fname ≠ f2.fname →
      c ++ "_" ++ f1.fname ≠ c ++ "_" ++ f2.fname := by
  constructor
  · have hcond : (gcols.isEmpty || aggMap.isEmpty) = false := by
      simp [List.isEmpty_eq_true, hg, ha]
    have hcols : ((gcols.all fun c => c ∈ t.header) &&
        (aggMap.all fun p => p.1 ∈ t.header)) = true := by
      simp only [Bool.and_eq_true, List.all_eq_true, decide_eq_true_eq]
      exact ⟨hgc, hac⟩
    simp only [aggregate_data, hcond, Bool.false_eq_true, if_false, hcols, if_true]
    congr 1
    · rw [List.map_congr_left fun c hc => flattenName_group (hgu c hc)]
      exact List.map_id gcols
    · apply flatMap_congr
      intro p hp
      apply List.map_congr_left
      intro f _
      exact flattenName_agg (hau p hp).1 (hau p hp).2 (fname_ne_empty f) (fname_getLast_ne f)
  · intro c f1 f2 hne heq
    apply hne
    have hdata := congrArg String.data heq
    simp only [String.data_append, List.append_assoc] at hdata
    have h1 := List.append_cancel_left hdata
    have h2 := List.append_cancel_left h1
    exact String.ext h2

/-- Witness for the amended C9 at a concrete aggregation. -/
theorem claim_C9_amended_column_function_names_witness :
    (aggregate_data ⟨["id", "amount"], [.text, .number], [[.str "a", .num 1]]⟩
        ["id"] [("amount", [.sum])]).1.header =
      ["id"] ++ [("amount", [AggFn.sum])].flatMap (fun p => p.2.map fun f => p.1 ++ "_" ++ f.fname) :=
  (claim_C9_amended_column_function_names
    ⟨["id", "amount"], [.text, .number], [[.str "a", .num 1]]⟩ ["id"] [("amount", [.sum])]
    (by decide) (by decide) (by decide) (by decide) (by decide) (by decide)).1

/-! ## The Pipeline Orchestrator transform loop (`pipeline_step_transform`)

`pipeline_step_transform` copies the committed Working Dataset `global_df`
into a local `df_current`, loops over menu choices applying operators to
`df_current` only, and assigns `global_df` exactly once — in the `finish`
branch (choice 4).  The discard branch (choice 6) and every operator branch
leave `global_df` untouched; operator errors are caught inside the
operators themselves, which return the input frame, so no error escapes
the loop. -/

/-- One choice of the interactive transformation menu, with the parameters
the operator prompts would collect (`view` is choice 5, `invalid` any
unrecognised entry). -/
inductive TransformChoice where
  | clean (cols : List String) (cs : Casing) : TransformChoice
  | filter (col : String) (value : String) : TransformChoice
  | aggregate (gcols : List String) (aggMap : List (String × List AggFn)) : TransformChoice
  | finish : TransformChoice
  | view : TransformChoice
  | discard : TransformChoice
  | invalid : TransformChoice
deriving DecidableEq

/-- Whether the loop continues, returns `True` (finish) or returns `False`
(discard). -/
inductive StepMode where
  | looping : StepMode
  | finished : StepMode
  | aborted : StepMode
deriving DecidableEq, Repr

/-- The orchestrator state inside the transform loop: the committed Working
Dataset (`global_df`, absent before a successful load) and the in-progress
copy `df_current`. -/
structure TransformState where
  global_df : Option Table
  df_current : Table
deriving DecidableEq

/-- One iteration of the transform loop on one menu choice. -/
def transform_step (s : TransformState) : TransformChoice → TransformState × StepMode
  | .clean cols cs => ({ s with df_current := clean_names s.df_current cols cs }, .looping)
  | .filter col v => ({ s with df_current := (filter_data s.df_current col v).1 }, .looping)
  | .aggregate g m => ({ s with df_current := (aggregate_data s.df_current g m).1 }, .looping)
  | .finish => ({ s with global_df := some s.df_current }, .finished)
  | .view => (s, .looping)
  | .discard => (s, .aborted)
  | .invalid => (s, .looping)

/-- The transform loop over a sequence of menu choices, stopping at the
first finish or discard.  The loop is a total function of its inputs: no
operator outcome can crash it. -/
def transform_run (s : TransformState) : List TransformChoice → TransformState
  | [] => s
  | c :: rest =>
    match transform_step s c with
    | (s', .looping) => transform_run s' rest
    | (s', _) => s'

/-- When `filter_data` reports an error rather than an application, it
returns the input frame. -/
theorem filter_data_error_fst (t : Table) (col v : String) :
    ((filter_data t col v).2 = .invalidValue ∨ (filter_data t col v).2 = .otherError) →
    (filter_data t col v).1 = t := by
  unfold filter_data
  split
  · intro h
    rfl
  · split
    · intro h
      rfl
    · split
      · split
        · intro h
          rfl
        · rintro (h | h) <;> simp at h
      · rintro (h | h) <;> simp at h

/-- When `aggregate_data` reports a skip or failure, it returns the input
frame. -/
theorem aggregate_data_skip_fst (t : Table) (g : List String)
    (m : List (String × List AggFn)) :
    (aggregate_data t g m).2 = false → (aggregate_data t g m).1 = t := by
  unfold aggregate_data
  split
  · intro h
    rfl
  · split
    · intro h
      simp at h
    · intro h
      rfl

theorem transform_step_global_df (s : TransformState) (c : TransformChoice)
    (h : c ≠ .finish) : (transform_step s c).1.global_df = s.global_df := by
  cases c with
  | finish => exact absurd rfl h
  | clean cols cs => rfl
  | filter col v => rfl
  | aggregate g m => rfl
  | view => rfl
  | discard => rfl
  | invalid => rfl

/-- **C2.** For every sequence of menu choices in the Transforming phase,
the committed Working Dataset (`global_df`) is replaced only by the
explicit finish transition: a sequence without finish leaves it unchanged.
Moreover an operator application whose operator reports a failure leaves
even the in-progress frame unchanged (never partially applied), the failure
outcome is reported to the caller, and the loop keeps looping — the
errors are recovered inside the operators, so none can crash the loop
(which is a total function). -/
theorem claim_C2_global_df_only_finish (s : TransformState)
    (choices : List TransformChoice) (hnf : TransformChoice.finish ∉ choices) :
    (transform_run s choices).global_df = s.global_df ∧
    (∀ col v, (filter_data s.df_current col v).2 = .invalidValue ∨
        (filter_data s.df_current col v).2 = .otherError →
      (transform_step s (.filter col v)).1 = s ∧
        (transform_step s (.filter col v)).2 = .looping) ∧
    (∀ g m, (aggregate_data s.df_current g m).2 = false →
      (transform_step s (.aggregate g m)).1 = s ∧
        (transform_step s (.aggregate g m)).2 = .looping) := by
  refine ⟨?_, ?_, ?_⟩
  · induction choices generalizing s with
    | nil => rfl
    | cons c rest ih =>
      have hc : c ≠ .finish := fun h => hnf (h ▸ List.mem_cons_self c rest)
      have hrest : TransformChoice.finish ∉ rest := fun h => hnf (List.mem_cons_of_mem c h)
      cases c with
      | finish => exact absurd rfl hc
      | clean cols cs => exact (ih _ hrest).trans rfl
      | filter col v => exact (ih _ hrest).trans rfl
      | aggregate g m => exact (ih _ hrest).trans rfl
      | view => exact (ih _ hrest).trans rfl
      | invalid => exact (ih _ hrest).trans rfl
      | discard => rfl
  · intro col v herr
    have hunch : (filter_data s.df_current col v).1 = s.df_current :=
      filter_data_error_fst s.df_current col v herr
    constructor
    · show ({ s with df_current := (filter_data s.df_current col v).1 } : TransformState) = s
      rw [hunch]
    · rfl
  · intro g m herr
    have hunch : (aggregate_data s.df_current g m).1 = s.df_current :=
      aggregate_data_skip_fst s.df_current g m herr
    constructor
    · show ({ s with df_current := (aggregate_data s.df_current g m).1 } : TransformState) = s
      rw [hunch]
    · rfl

/-- Witness for C2: a clean, a filter and a view step (no finish) leave the
committed Working Dataset untouched. -/
theorem claim_C2_global_df_only_finish_witness :
    (transform_run ⟨some ⟨["name"], [.text], [[.str "bob"]]⟩, ⟨["name"], [.text], [[.str "bob"]]⟩⟩
      [.clean ["name"] .title, .filter "name" "bob", .view]).global_df =
      some ⟨["name"], [.text], [[.str "bob"]]⟩ :=
  (claim_C2_global_df_only_finish
    ⟨some ⟨["name"], [.text], [[.str "bob"]]⟩, ⟨["name"], [.text], [[.str "bob"]]⟩⟩
    [.clean ["name"] .title, .filter "name" "bob", .view] (by decide)).1

/-! ## The Source Loader (`load_source_data`)

Every failure branch of `load_source_data` returns `pd.DataFrame()` — the
empty frame — and reports the failure through `logging.error` only.  The
model returns the frame together with the logged event. -/

/-- What `load_source_data` logs. -/
inductive LoadEvent where
  | sourceNotFound : LoadEvent
  | unsupportedFormat : LoadEvent
  | dbEmpty : LoadEvent
  | loadError : LoadEvent
  | ok : LoadEvent
deriving DecidableEq, Repr

/-- What a source path holds in the modelled file system: text content that
`read_csv` parses to a frame, a SQLite database (named tables), or content
on which the reader raises (caught by the generic handler). -/
inductive FileContent where
  | delimited (t : Table) : FileContent
  | sqlite (tables : List (String × Table)) : FileContent
  | unreadable : FileContent
deriving DecidableEq

/-- The modelled file system: an association of paths to contents. -/
structure FileSystem where
  files : List (String × FileContent)

/-- `os.path.splitext(path)[1].lower()`: the extension from the last dot of
the final path component, lowercased (empty when there is no dot). -/
def extOf (path : String) : String :=
  let rev := path.data.reverse
  let pre := rev.takeWhile fun c => c ≠ '.' && c ≠ '/'
  match rev.drop pre.length with
  | '.' :: _ => ⟨('.' :: pre.reverse).map Char.toLower⟩
  | _ => ""

/-- `load_source_data(file_path)`: a missing file logs `SourceNotFound` and
returns the empty frame; `.db`/`.sqlite` paths enumerate the database
tables and load the interactively selected one (`pick` stands for the
eventual valid selection of the input loop, reduced modulo the table
count); `.csv`/`.txt` paths are parsed wholesale; any other extension logs
`UnsupportedFormat` and returns the empty frame; reader exceptions are
caught and return the empty frame. -/
def load_source_data (fs : FileSystem) (pick : Nat) (path : String) :
    Table × LoadEvent :=
  match fs.files.lookup path with
  | none => (Table.emptyFrame, .sourceNotFound)
  | some content =>
    if extOf path = ".db" ∨ extOf path = ".sqlite" then
      match content with
      | .sqlite tables =>
        if tables.isEmpty then (Table.emptyFrame, .dbEmpty)
        else ((tables.getD (pick % tables.length) ("", Table.emptyFrame)).2, .ok)
      | _ => (Table.emptyFrame, .loadError)
    else if extOf path = ".csv" ∨ extOf path = ".txt" then
      match content with
      | .delimited t => (t, .ok)
      | _ => (Table.emptyFrame, .loadError)
    else (Table.emptyFrame, .unsupportedFormat)

/-- Counterexample to C1 as stated: a missing `.csv` path and an existing
`.json` path produce the *same* result of `load_source_data` — the empty
frame — so the three outcomes are not pairwise distinct results. -/
theorem claim_C1_counterexample :
    (load_source_data ⟨[("data.json", .delimited ⟨["a"], [.text], [[.str "x"]]⟩)]⟩
        0 "missing.csv").1 =
      (load_source_data ⟨[("data.json", .delimited ⟨["a"], [.text], [[.str "x"]]⟩)]⟩
        0 "data.json").1 ∧
    (load_source_data ⟨[("data.json", .delimited ⟨["a"], [.text], [[.str "x"]]⟩)]⟩
        0 "missing.csv").2 = .sourceNotFound ∧
    (load_source_data ⟨[("data.json", .delimited ⟨["a"], [.text], [[.str "x"]]⟩)]⟩
        0 "data.json").2 = .unsupportedFormat := by
  decide

/-- **C1 (amended).** A missing file logs `SourceNotFound` and an
unsupported extension logs `UnsupportedFormat`, but both return the same
empty frame — the two failures are distinguished only by the logged event,
not by the returned Table.  A structurally successful load that yields zero
rows returns an empty Table that still carries the source's column names,
so it is distinguishable from either failure whenever the source has at
least one column. -/
theorem claim_C1_amended_failures_return_empty_frame (fs : FileSystem)
    (pick : Nat) (pmiss pjson pcsv : String) (cols : List String) (dts : List Dtype)
    (hmiss : fs.files.lookup pmiss = none)
    (hjson : ∃ c, fs.files.lookup pjson = some c)
    (hext : extOf pjson ∉ [".db", ".sqlite", ".csv", ".txt"])
    (hcsv : fs.files.lookup pcsv = some (.delimited ⟨cols, dts, []⟩))
    (hcsvext : extOf pcsv = ".csv" ∨ extOf pcsv = ".txt")
    (hcols : cols ≠ []) :
    load_source_data fs pick pmiss = (Table.emptyFrame, .sourceNotFound) ∧
    load_source_data fs pick pjson = (Table.emptyFrame, .unsupportedFormat) ∧
    (load_source_data fs pick pmiss).1 = (load_source_data fs pick pjson).1 ∧
    load_source_data fs pick pcsv = (⟨cols, dts, []⟩, .ok) ∧
    (load_source_data fs pick pcsv).1 ≠ Table.emptyFrame ∧
    (load_source_data fs pick pcsv).1.isEmpty = true := by
  simp only [List.mem_cons, List.mem_singleton, not_or] at hext
  have hdb := hext.1
  have hsql := hext.2.1
  have hcsve := hext.2.2.1
  have htxt := hext.2.2.2.1
  obtain ⟨c, hc⟩ := hjson
  have h1 : load_source_data fs pick pmiss = (Table.emptyFrame, .sourceNotFound) := by
    simp [load_source_data, hmiss]
  have h2 : load_source_data fs pick pjson = (Table.emptyFrame, .unsupportedFormat) := by
    simp [load_source_data, hc, hdb, hsql, hcsve, htxt]
  have h3 : load_source_data fs pick pcsv = (⟨cols, dts, []⟩, .ok) := by
    rcases hcsvext with hx | hx <;> simp [load_source_data, hcsv, hx]
  refine ⟨h1, h2, by rw [h1, h2], h3, ?_, by rw [h3]; simp [Table.isEmpty]⟩
  rw [h3]
  simp only [ne_eq, Table.emptyFrame, Table.mk.injEq, not_and]
  intro hc2
  exact absurd hc2 hcols

/-- Witness for the amended C1 on a concrete file system: a missing path, a
`.json` path and a header-only `.csv` source. -/
theorem claim_C1_amended_failures_return_empty_frame_witness :
    load_source_data ⟨[("data.json", .delimited ⟨["a"], [.text], [[.str "x"]]⟩),
        ("empty.csv", .delimited ⟨["id"], [.text], []⟩)]⟩ 0 "missing.csv" =
      (Table.emptyFrame, .sourceNotFound) :=
  (claim_C1_amended_failures_return_empty_frame
    ⟨[("data.json", .delimited ⟨["a"], [.text], [[.str "x"]]⟩),
        ("empty.csv", .delimited ⟨["id"], [.text], []⟩)]⟩ 0
    "missing.csv" "data.json" "empty.csv" ["id"] [.text]
    (by decide) ⟨.delimited ⟨["a"], [.text], [[.str "x"]]⟩, by decide⟩
    (by decide) (by decide) (by decide) (by decide)).1

/-! ## The Staging Writer (`save_staging_data` / `save_final_data`)

`save_staging_data` writes to `staging_data/{stage_name}.csv` — the
location depends on the stage label only, not on the time of the call.
`save_final_data` writes to
`data_warehouse/{final_name}_{%Y%m%d_%H%M%S}.csv`, a location derived from
the label and the wall clock at second resolution. -/

/-- A wall-clock instant at second resolution, as `strftime` fields. -/
structure DateTime where
  year : Nat
  month : Nat
  day : Nat
  hour : Nat
  minute : Nat
  second : Nat
deriving DecidableEq, Repr

/-- Field bounds under which `strftime` produces fixed-width zero-padded
digits (every real timestamp satisfies them). -/
def DateTime.Valid (d : DateTime) : Prop :=
  d.year < 10000 ∧ d.month < 100 ∧ d.day < 100 ∧ d.hour < 100 ∧
    d.minute < 100 ∧ d.second < 100

instance (d : DateTime) : Decidable d.Valid := by
  unfold DateTime.Valid
  infer_instance

/-- Two zero-padded decimal digits. -/
def pad2 (n : Nat) : List Char := [Nat.digitChar (n / 10 % 10), Nat.digitChar (n % 10)]

/-- Four zero-padded decimal digits. -/
def pad4 (n : Nat) : List Char :=
  [Nat.digitChar (n / 1000 % 10), Nat.digitChar (n / 100 % 10),
    Nat.digitChar (n / 10 % 10), Nat.digitChar (n % 10)]

/-- `pd.Timestamp.now().strftime("%Y%m%d_%H%M%S")`. -/
def strftimeCompact (d : DateTime) : String :=
  ⟨pad4 d.year ++ pad2 d.month ++ pad2 d.day ++ ['_'] ++
    pad2 d.hour ++ pad2 d.minute ++ pad2 d.second⟩

/-- The location `save_staging_data` writes:
`os.path.join('staging_data', f"{stage_name}.csv")`.  The current instant
is passed to model an invocation time, but the code derives the location
from the label alone. -/
def save_staging_path (stage : String) (_now : DateTime) : String :=
  "staging_data/" ++ stage ++ ".csv"

/-- The location `save_final_data` writes:
`os.path.join('data_warehouse', f"{final_name}_{timestamp}.csv")`. -/
def save_final_path (finalName : String) (now : DateTime) : String :=
  "data_warehouse/" ++ finalName ++ "_" ++ strftimeCompact now ++ ".csv"

theorem digitChar_inj_lt_ten : ∀ a < 10, ∀ b < 10, Nat.digitChar a = Nat.digitChar b → a = b := by
  decide

theorem strftimeCompact_inj {d e : DateTime} (hd : d.Valid) (he : e.Valid)
    (h : strftimeCompact d = strftimeCompact e) : d = e := by
  cases d with
  | mk y1 mo1 dy1 hr1 mi1 s1 =>
  cases e with
  | mk y2 mo2 dy2 hr2 mi2 s2 =>
  simp only [DateTime.Valid] at hd he
  obtain ⟨hy1, hmo1, hdy1, hh1, hmi1, hs1⟩ := hd
  obtain ⟨hy2, hmo2, hdy2, hh2, hmi2, hs2⟩ := he
  have hdata := congrArg String.data h
  simp only [strftimeCompact, pad4, pad2, List.cons_append, List.nil_append,
    List.cons.injEq, and_true, true_and] at hdata
  obtain ⟨a1, a2, a3, a4, b1, b2, c1, c2, f1, f2, g1, g2, k1, k2⟩ := hdata
  have ha1 := digitChar_inj_lt_ten _ (Nat.mod_lt _ (by omega)) _ (Nat.mod_lt _ (by omega)) a1
  have ha2 := digitChar_inj_lt_ten _ (Nat.mod_lt _ (by omega)) _ (Nat.mod_lt _ (by omega)) a2
  have ha3 := digitChar_inj_lt_ten _ (Nat.mod_lt _ (by omega)) _ (Nat.mod_lt _ (by omega)) a3
  have ha4 := digitChar_inj_lt_ten _ (Nat.mod_lt _ (by omega)) _ (Nat.mod_lt _ (by omega)) a4
  have hb1 := digitChar_inj_lt_ten _ (Nat.mod_lt _ (by omega)) _ (Nat.mod_lt _ (by omega)) b1
  have hb2 := digitChar_inj_lt_ten _ (Nat.mod_lt _ (by omega)) _ (Nat.mod_lt _ (by omega)) b2
  have hc1 := digitChar_inj_lt_ten _ (Nat.mod_lt _ (by omega)) _ (Nat.mod_lt _ (by omega)) c1
  have hc2 := digitChar_inj_lt_ten _ (Nat.mod_lt _ (by omega)) _ (Nat.mod_lt _ (by omega)) c2
  have hf1 := digitChar_inj_lt_ten _ (Nat.mod_lt _ (by omega)) _ (Nat.mod_lt _ (by omega)) f1
  have hf2 := digitChar_inj_lt_ten _ (Nat.mod_lt _ (by omega)) _ (Nat.mod_lt _ (by omega)) f2
  have hg1 := digitChar_inj_lt_ten _ (Nat.mod_lt _ (by omega)) _ (Nat.mod_lt _ (by omega)) g1
  have hg2 := digitChar_inj_lt_ten _ (Nat.mod_lt _ (by omega)) _ (Nat.mod_lt _ (by omega)) g2
  have hk1 := digitChar_inj_lt_ten _ (Nat.mod_lt _ (by omega)) _ (Nat.mod_lt _ (by omega)) k1
  have hk2 := digitChar_inj_lt_ten _ (Nat.mod_lt _ (by omega)) _ (Nat.mod_lt _ (by omega)) k2
  simp only [DateTime.mk.injEq]
  refine ⟨by omega, by omega, by omega, by omega, by omega, by omega⟩

/-- Counterexample to C3 as stated: two staging invocations one second
apart with the same stage label write the same location — the staging
location ignores the timestamp, so the prior snapshot is overwritten. -/
theorem claim_C3_counterexample :
    save_staging_path "raw_load_data" ⟨2024, 1, 1, 12, 0, 0⟩ =
      save_staging_path "raw_load_data" ⟨2024, 1, 1, 12, 0, 1⟩ ∧
    (⟨2024, 1, 1, 12, 0, 0⟩ : DateTime) ≠ ⟨2024, 1, 1, 12, 0, 1⟩ := by
  constructor
  · rfl
  · decide

/-- **C3 (amended).** Only the final snapshot location is derived from the
label and the current timestamp at second resolution: two final-writer
invocations with the same label at distinct (valid) instants write
distinct locations.  The staging location is derived from the stage label
alone, so a repeated label makes the Staging Writer overwrite the prior
staging snapshot. -/
theorem claim_C3_amended_final_paths_distinct (name stage : String) (d e : DateTime)
    (hd : d.Valid) (he : e.Valid) (hne : d ≠ e) :
    save_final_path name d ≠ save_final_path name e ∧
    save_staging_path stage d = save_staging_path stage e := by
  refine ⟨fun h => hne ?_, rfl⟩
  apply strftimeCompact_inj hd he
  apply String.ext
  have hdata := congrArg String.data h
  simp only [save_final_path, String.data_append, List.append_assoc] at hdata
  have h1 := List.append_cancel_left hdata
  have h2 := List.append_cancel_left h1
  have h3 := List.append_cancel_left h2
  exact List.append_cancel_right h3

/-- Witness for the amended C3 at two concrete instants one second apart. -/
theorem claim_C3_amended_final_paths_distinct_witness :
    save_final_path "FINAL_ANALYTICS" ⟨2024, 1, 1, 12, 0, 0⟩ ≠
      save_final_path "FINAL_ANALYTICS" ⟨2024, 1, 1, 12, 0, 1⟩ :=
  (claim_C3_amended_final_paths_distinct "FINAL_ANALYTICS" "raw_load_data"
    ⟨2024, 1, 1, 12, 0, 0⟩ ⟨2024, 1, 1, 12, 0, 1⟩ (by decide) (by decide) (by decide)).1

/-! ## The Scheduler Loop (`schedule_task`)

`schedule_task` registers `run_full_pipeline_scheduled` with
`schedule.every(30).seconds` and then polls
`while True: schedule.run_pending(); time.sleep(1)` on the single control
thread.  `run_pending` calls the job synchronously: the pipeline run
occupies the thread until it returns, and only then does the loop poll
again; after a run, the library schedules the next one relative to the
completion instant.  The model advances a discrete wall clock: each
iteration either performs the due run to completion (time jumps by its
duration) or sleeps one second. -/

/-- Scheduler-loop state: the current wall-clock second and the next
scheduled run instant maintained by the `schedule` library. -/
structure SchedState where
  now : Nat
  nextRun : Nat
deriving DecidableEq, Repr

/-- The runs `(start, finish)` performed within `fuel` loop iterations,
where `dur k` is the wall-clock duration of the `k`-th pipeline run. -/
def schedRuns (dur : Nat → Nat) : Nat → Nat → SchedState → List (Nat × Nat)
  | 0, _, _ => []
  | fuel + 1, k, st =>
    if st.nextRun ≤ st.now then
      (st.now, st.now + dur k) ::
        schedRuns dur fuel (k + 1) ⟨st.now + dur k, st.now + dur k + 30⟩
    else
      schedRuns dur fuel k ⟨st.now + 1, st.nextRun⟩

/-- `schedule_task` observed for `fuel` loop iterations from registration
at instant `start` (`schedule.every(30).seconds` first fires 30 seconds
after registration). -/
def schedule_task (dur : Nat → Nat) (fuel start : Nat) : List (Nat × Nat) :=
  schedRuns dur fuel 0 ⟨start, start + 30⟩

theorem schedRuns_start_lb (dur : Nat → Nat) (fuel : Nat) :
    ∀ (k : Nat) (st : SchedState) (iv : Nat × Nat),
      iv ∈ schedRuns dur fuel k st → st.now ≤ iv.1 := by
  induction fuel with
  | zero =>
    intro k st iv h
    simp [schedRuns] at h
  | succ n ih =>
    intro k st iv h
    unfold schedRuns at h
    split at h
    · rcases List.mem_cons.mp h with h0 | h0
      · subst h0
        exact Nat.le_refl _
      · have := ih (k + 1) ⟨st.now + dur k, st.now + dur k + 30⟩ iv h0
        simp only at this
        omega
    · have := ih k ⟨st.now + 1, st.nextRun⟩ iv h
      simp only at this
      omega

theorem schedRuns_chain (dur : Nat → Nat) (fuel : Nat) :
    ∀ (k : Nat) (st : SchedState),
      List.Chain' (fun a b => a.2 ≤ b.1) (schedRuns dur fuel k st) := by
  induction fuel with
  | zero =>
    intro k st
    simp [schedRuns]
  | succ n ih =>
    intro k st
    unfold schedRuns
    split
    · rw [List.chain'_cons']
      refine ⟨?_, ih (k + 1) ⟨st.now + dur k, st.now + dur k + 30⟩⟩
      intro y hy
      have hmem := List.mem_of_mem_head? hy
      have := schedRuns_start_lb dur n (k + 1) ⟨st.now + dur k, st.now + dur k + 30⟩ y hmem
      simpa using this
    · exact ih k ⟨st.now + 1, st.nextRun⟩

theorem schedRuns_count_cover (dur : Nat → Nat) (fuel : Nat) :
    ∀ (k : Nat) (st : SchedState) (t : Nat),
      (schedRuns dur fuel k st).countP (fun iv => decide (iv.1 ≤ t ∧ t < iv.2)) ≤ 1 := by
  induction fuel with
  | zero =>
    intro k st t
    simp [schedRuns]
  | succ n ih =>
    intro k st t
    unfold schedRuns
    split
    · rw [List.countP_cons]
      by_cases hcov : st.now ≤ t ∧ t < st.now + dur k
      · have hzero : (schedRuns dur n (k + 1)
            ⟨st.now + dur k, st.now + dur k + 30⟩).countP
            (fun iv => decide (iv.1 ≤ t ∧ t < iv.2)) = 0 := by
          rw [List.countP_eq_zero]
          intro iv hiv
          have hlb := schedRuns_start_lb dur n (k + 1)
            ⟨st.now + dur k, st.now + dur k + 30⟩ iv hiv
          simp only at hlb
          simp only [decide_eq_true_eq, not_and, not_lt]
          intro h1
          omega
        rw [hzero]
        split <;> omega
      · have hcond : (decide ((st.now, st.now + dur k).1 ≤ t ∧
            t < (st.now, st.now + dur k).2)) = false := by
          simpa using hcov
        rw [hcond]
        have := ih (k + 1) ⟨st.now + dur k, st.now + dur k + 30⟩ t
        simp only [Bool.false_eq_true, if_false]
        omega
    · exact ih k ⟨st.now + 1, st.nextRun⟩ t

/-- **C4.** Full pipeline runs triggered by the scheduler loop never
overlap: every run finishes no later than the next one starts (a trigger
falling due during a run is deferred until the run completes, because the
job executes synchronously on the polling thread), so at any instant at
most one run — and hence at most one mutation of the Working Dataset — is
in progress. -/
theorem claim_C4_scheduler_serialized (dur : Nat → Nat) (fuel start : Nat) :
    List.Chain' (fun a b => a.2 ≤ b.1) (schedule_task dur fuel start) ∧
    ∀ t : Nat, (schedule_task dur fuel start).countP
      (fun iv => decide (iv.1 ≤ t ∧ t < iv.2)) ≤ 1 :=
  ⟨schedRuns_chain dur fuel 0 ⟨start, start + 30⟩,
    fun t => schedRuns_count_cover dur fuel 0 ⟨start, start + 30⟩ t⟩

end ETL
